import Mathlib

/-!
Shallow embedding of `src/python/downloader.py` (class `Downloader`):
the per-task retry/resume loop `_download_single_url`, the round-based
engine `download`, and the integrity verifier `md5check`.

Modelling conventions:
* A local file is `Option (List Nat)`: `none` when the file does not exist
  at `outputPath`, `some bytes` when it exists with those bytes.
* The HTTP layer (`requests.get`) is an oracle
  `server : Nat → Option Nat → Resp` mapping the attempt index and the
  optional range start (the `Range: bytes=k-` header, `none` for a full
  request) to one of: status 416, a successful response with a body,
  an exception raised before any byte is written (connection error or
  `raise_for_status` on a non-2xx status), or an exception raised
  mid-stream after some bytes were already appended.
* `max_retries` is an `Int` (Python `int` may be non-positive;
  `range(n)` is empty for `n ≤ 0`).
* `continue_on_error` is `bool | int` in Python, modelled by the sum
  `COE`; Python truthiness and `x -= 1` (with `True - 1 = 0`) are
  modelled by `COE.truthy` and `COE.dec`.
* The recursive `download` carries explicit fuel because Python's
  recursion does not terminate for every input (a negative integer
  budget is truthy and decremented forever); all theorems supply enough
  fuel and show the result is the genuine fixpoint (the stop condition
  of the recursion holds at the returned state).
* `executor.map` of the thread pool is `executorMap`, parameterised by a
  completion `schedule`: workers may finish in any order, but each
  result is stored at its input index.
-/

namespace Downloader

/-- Outcome of one `requests.get` call inside the retry loop. -/
inductive Resp where
  | status416 : Resp
  | ok : List Nat → Resp
  | errBefore : Resp
  | errMid : List Nat → Resp
deriving DecidableEq

/-- Content of `outputPath`: `none` if the file does not exist. -/
abbrev FileContent := Option (List Nat)

/-- The `Range` header computed at the start of an attempt:
`bytes=size-` iff `self.resume` and `outpath.exists()` (source line 80-83),
where `size` is the file's current on-disk size, recomputed here. -/
def rangeHeaderOf (resume : Bool) (file : FileContent) : Option Nat :=
  if resume && file.isSome then some (file.getD []).length else none

/-- Result of one iteration of the `for i in range(self.max_retries)` loop:
either the loop `break`s (success so far) or the `except` branch runs. -/
inductive AttemptOut where
  | done : FileContent → AttemptOut
  | failedAttempt : FileContent → AttemptOut
deriving DecidableEq

/-- One attempt (source lines 80-93): compute the range header, issue the
request; on 416 `break` with the file untouched; on success append the
whole body (`open(outpath, 'ab')`); on an exception keep whatever partial
bytes were already appended. -/
def attemptOnce (resume : Bool) (server : Nat → Option Nat → Resp) (i : Nat)
    (file : FileContent) : AttemptOut :=
  match server i (rangeHeaderOf resume file) with
  | .status416 => .done file
  | .ok body => .done (some (file.getD [] ++ body))
  | .errBefore => .failedAttempt file
  | .errMid p => .failedAttempt (some (file.getD [] ++ p))

/-- The retry loop of `_download_single_url` (source lines 79-103), run over
the list of attempt indices `range(max_retries)`.  Returns the final file
content, the boolean status returned to `download`, and a trace of the HTTP
requests issued: one entry `(i, rangeStart, fileAtStart)` per request. -/
def runAttempts (resume : Bool) (maxRetries : Int)
    (server : Nat → Option Nat → Resp) :
    List Nat → FileContent → FileContent × Bool × List (Nat × Option Nat × FileContent)
  | [], file => (file, true, [])
  | i :: rest, file =>
    let entry := (i, rangeHeaderOf resume file, file)
    match attemptOnce resume server i file with
    | .done f => (f, true, [entry])
    | .failedAttempt f =>
      if (i : Int) = maxRetries - 1 then (f, false, [entry])
      else
        let r := runAttempts resume maxRetries server rest f
        (r.1, r.2.1, entry :: r.2.2)

/-- `_download_single_url` for one task: the retry loop over
`range(max_retries)` starting from the current file content. -/
def download_single_url (resume : Bool) (maxRetries : Int)
    (server : Nat → Option Nat → Resp) (file : FileContent) :
    FileContent × Bool × List (Nat × Option Nat × FileContent) :=
  runAttempts resume maxRetries server (List.range maxRetries.toNat) file

/-- Python `continue_on_error : bool | int`. -/
inductive COE where
  | bool : Bool → COE
  | int : Int → COE
deriving DecidableEq

/-- Python truthiness of `continue_on_error` in
`if self.failed and self.continue_on_error:` (source line 116). -/
def COE.truthy : COE → Bool
  | .bool b => b
  | .int n => n != 0

/-- Python `self.continue_on_error -= 1` (source line 121): `True - 1 = 0`,
`False - 1 = -1`, and integer decrement otherwise. -/
def COE.dec : COE → COE
  | .bool b => .int ((if b then 1 else 0) - 1)
  | .int n => .int (n - 1)

/-- The mutable attributes of `Downloader` that `download` reads and writes,
plus an instrumentation counter `rounds` for the number of completed calls
to `download` (rounds performed). -/
structure DState where
  urls : List String
  names : List String
  coe : COE
  failed : List (String × String)
  rounds : Nat
deriving DecidableEq

/-- The failed pairs appended during one round (source lines 108-114):
`executor.map` yields results in input order, and each task with
`status == False` appends its `(url, name)` pair. -/
def roundFailed (dl : Nat → String → String → Bool) (r : Nat)
    (urls names : List String) : List (String × String) :=
  (urls.zip names).filter (fun p => !(dl r p.1 p.2))

/-- The engine `download` (source lines 105-126), parameterised by the
per-task outcome `dl round url name` (the boolean returned by
`_download_single_url`), with explicit fuel for the recursion.  After a
round, if the accumulated failed list is non-empty and the budget is
truthy, the budget is decremented, `urls`/`names` are replaced by the
failed pairs, `failed` is cleared and the engine recurses. -/
def download (dl : Nat → String → String → Bool) : Nat → DState → DState
  | 0, s => s
  | fuel + 1, s =>
    let failed := s.failed ++ roundFailed dl s.rounds s.urls s.names
    if failed ≠ [] ∧ (s.coe.truthy = true) then
      download dl fuel
        { urls := failed.map Prod.fst, names := failed.map Prod.snd,
          coe := s.coe.dec, failed := [], rounds := s.rounds + 1 }
    else
      { s with failed := failed, rounds := s.rounds + 1 }

/-- The loop body of `md5check` (source lines 144-160) over
`zip(md5sums, self.names)`: for an existing file, append the comparison of
the lowercased hex digest with the lowercased expected digest; for a
missing file, only log — nothing is appended. -/
def md5body (hash : List Nat → String) (fs : String → FileContent) :
    List (String × String) → List Bool
  | [] => []
  | (m, name) :: rest =>
    match fs name with
    | some content => (((hash content).toLower) == m.toLower) :: md5body hash fs rest
    | none => md5body hash fs rest

/-- `md5check` (source lines 128-162): raise `ValueError` when
`len(md5sums) != len(self.urls)`, otherwise run the loop over
`zip(md5sums, self.names)` and return the accumulated list.  `fs` maps a
name to the content of `outdir/name` and `hash` is the (lowercase) hex
digest function. -/
def md5check (urls names : List String) (fs : String → FileContent)
    (hash : List Nat → String) (md5sums : List String) : Except Unit (List Bool) :=
  if md5sums.length ≠ urls.length then .error ()
  else .ok (md5body hash fs (md5sums.zip names))

/-- `ThreadPoolExecutor.map` (source line 108): tasks complete in an
arbitrary order given by `schedule` (indices into `inputs`), but each
result is stored at its own input index. -/
def executorMap (f : α → β) (inputs : List α) (schedule : List Nat) :
    List (Option β) :=
  schedule.foldl
    (fun acc j =>
      match inputs[j]? with
      | some a => acc.set j (some (f a))
      | none => acc)
    (List.replicate inputs.length none)

/-- `b` extends `a` by appending: whenever `a` exists with content `c`,
`b` exists and its content has `c` as an initial segment. -/
def Extends (a b : FileContent) : Prop :=
  ∀ c, a = some c → ∃ t, b = some (c ++ t)

/-! ### Helper lemmas -/

theorem Extends.rfl (a : FileContent) : Extends a a := by
  intro c hc
  exact ⟨[], by simp [hc]⟩

theorem Extends.trans {a b c : FileContent} (h1 : Extends a b) (h2 : Extends b c) :
    Extends a c := by
  intro x hx
  obtain ⟨t, ht⟩ := h1 x hx
  obtain ⟨t', ht'⟩ := h2 _ ht
  exact ⟨t ++ t', by simp [ht']⟩

/-- The file written by one attempt, whether the attempt broke out or raised. -/
def AttemptOut.file : AttemptOut → FileContent
  | .done f => f
  | .failedAttempt f => f

theorem attemptOnce_extends (resume : Bool) (server : Nat → Option Nat → Resp)
    (i : Nat) (file : FileContent) :
    Extends file (attemptOnce resume server i file).file := by
  unfold attemptOnce
  cases server i (rangeHeaderOf resume file) with
  | status416 => exact Extends.rfl file
  | ok body => intro c hc; exact ⟨body, by simp [AttemptOut.file, hc]⟩
  | errBefore => exact Extends.rfl file
  | errMid p => intro c hc; exact ⟨p, by simp [AttemptOut.file, hc]⟩

/-- The `md5check` loop keeps, in input order, one boolean per pair whose
file exists, and skips pairs whose file does not exist. -/
theorem md5body_eq_filter_map (hash : List Nat → String) (fs : String → FileContent)
    (l : List (String × String)) :
    md5body hash fs l
      = (l.filter (fun p => (fs p.2).isSome)).map
          (fun p => ((hash ((fs p.2).getD [])).toLower == p.1.toLower)) := by
  induction l with
  | nil => rfl
  | cons p rest ih =>
    obtain ⟨m, name⟩ := p
    cases h : fs name <;> simp [md5body, h, ih, List.filter_cons]

/-- `md5check` raises exactly when the digest count differs from the count
of stored urls, for every file system and hash function (so the raise
happens before any file is read). -/
theorem md5check_error_iff (urls names : List String) (fs : String → FileContent)
    (hash : List Nat → String) (md5sums : List String) :
    (md5check urls names fs hash md5sums = .error ()) ↔ md5sums.length ≠ urls.length := by
  unfold md5check
  split
  · simp [*]
  · simp [*]

/-! ### C1 -/

/-- C1 counterexample: with one url/name whose file does not exist and a
matching digest list, `md5check` returns the empty list — not `[false]` as
the claim requires (one result per name, `false` for a missing file). -/
theorem c1_counterexample :
    md5check ["u"] ["n"] (fun _ => none) (fun _ => "") ["d"] = .ok []
    ∧ md5check ["u"] ["n"] (fun _ => none) (fun _ => "") ["d"] ≠ .ok [false] := by
  constructor
  · rfl
  · intro h
    rw [md5check] at h
    simp [md5body] at h

/-- C1 amended: when the digest list matches the stored url list in length,
`md5check` returns one boolean per supplied `(digest, name)` pair whose file
exists, in the order the names were supplied; pairs whose file does not
exist contribute no entry (they are skipped, not reported `false`). -/
theorem c1_md5check_per_existing_name (urls names : List String)
    (fs : String → FileContent) (hash : List Nat → String) (md5sums : List String)
    (hlen : md5sums.length = urls.length) :
    md5check urls names fs hash md5sums
      = .ok (((md5sums.zip names).filter (fun p => (fs p.2).isSome)).map
          (fun p => ((hash ((fs p.2).getD [])).toLower == p.1.toLower))) := by
  unfold md5check
  rw [if_neg (by simp [hlen]), md5body_eq_filter_map]

/-- C1 witness: a concrete two-name batch where the first file exists and
the second is missing: exactly one comparison result, for the first name. -/
theorem c1_witness :
    md5check ["u1", "u2"] ["n1", "n2"]
      (fun n => if n = "n1" then some [7] else none) (fun _ => "ab") ["AB", "CD"]
      = .ok [("ab".toLower == "AB".toLower)] := by
  have h := c1_md5check_per_existing_name ["u1", "u2"] ["n1", "n2"]
    (fun n => if n = "n1" then some [7] else none) (fun _ => "ab") ["AB", "CD"]
    (by decide)
  simpa using h

/-! ### C4 -/

/-- C4: an attempt that receives HTTP status 416 breaks out of the retry
loop immediately: the task's outcome is success and the file content is
unchanged by that attempt (no bytes written). -/
theorem c4_416_short_circuit (resume : Bool) (maxRetries : Int)
    (server : Nat → Option Nat → Resp) (i : Nat) (rest : List Nat)
    (file : FileContent)
    (h : server i (rangeHeaderOf resume file) = .status416) :
    runAttempts resume maxRetries server (i :: rest) file
      = (file, true, [(i, rangeHeaderOf resume file, file)]) := by
  simp [runAttempts, attemptOnce, h]

/-- C4 witness: a server answering 416 on a fully present file. -/
theorem c4_witness :
    runAttempts true 3 (fun _ _ => .status416) [0, 1, 2] (some [1, 2])
      = (some [1, 2], true, [(0, some 2, some [1, 2])]) :=
  c4_416_short_circuit true 3 (fun _ _ => .status416) 0 [1, 2] (some [1, 2]) rfl

/-! ### C5 -/

/-- C5 counterexample: `md5check` compares the digest count with
`self.urls`, not `self.names`: here the digest list has the same length as
the name list, yet the call still raises `ValueError` because the stored
url list is longer. -/
theorem c5_counterexample :
    md5check ["u1", "u2"] ["n1"] (fun _ => some []) (fun _ => "") ["d"] = .error ()
    ∧ (["d"] : List String).length = (["n1"] : List String).length := by
  exact ⟨rfl, rfl⟩

/-- C5 amended: `md5check` raises a configuration error if and only if the
digest list's length differs from the stored *url* list's length (not the
name list's), and the outcome of that check is the same for every file
system and hash function — so when it raises, no file has been read. -/
theorem c5_length_check_against_urls (urls names : List String)
    (fs : String → FileContent) (hash : List Nat → String) (md5sums : List String) :
    (md5check urls names fs hash md5sums = .error ()) ↔ md5sums.length ≠ urls.length :=
  md5check_error_iff urls names fs hash md5sums

/-- C5 witness: a concrete mismatched digest list raises. -/
theorem c5_witness :
    md5check ["a"] ["b"] (fun _ => none) (fun _ => "") ["x", "y"] = .error () :=
  (c5_length_check_against_urls ["a"] ["b"] (fun _ => none) (fun _ => "")
    ["x", "y"]).mpr (by decide)

/-! ### C9 -/

/-- C9: with resume disabled and an existing file of content `c`, a
successful attempt issues a full (un-ranged) request — the range header is
`none` — but opens the file in append mode, so the file afterwards is the
pre-existing bytes followed by the entire response body. -/
theorem c9_noresume_appends (maxRetries : Int)
    (server : Nat → Option Nat → Resp) (i : Nat) (rest : List Nat)
    (c body : List Nat) (h : server i none = .ok body) :
    runAttempts false maxRetries server (i :: rest) (some c)
      = (some (c ++ body), true, [(i, none, some c)]) := by
  have hr : rangeHeaderOf false (some c) = none := rfl
  simp [runAttempts, attemptOnce, hr, h]

/-- C9 witness: two pre-existing bytes survive in front of the body. -/
theorem c9_witness :
    runAttempts false 3 (fun _ _ => .ok [9, 9]) [0, 1, 2] (some [1, 2])
      = (some [1, 2, 9, 9], true, [(0, none, some [1, 2])]) :=
  c9_noresume_appends 3 (fun _ _ => .ok [9, 9]) 0 [1, 2] [1, 2] [9, 9] rfl

/-! ### C10 -/

/-- C10: with `max_retries ≤ 0`, `range(max_retries)` is empty, so the
per-task download returns success with no HTTP request issued (empty
trace) and no bytes written (file unchanged); consequently the task is
never appended to the failed list of a round. -/
theorem c10_nonpos_retries_success (resume : Bool) (maxRetries : Int)
    (hmr : maxRetries ≤ 0) (server : Nat → Option Nat → Resp)
    (file : FileContent)
    (serverOf : String → String → Nat → Option Nat → Resp)
    (fsOf : String → FileContent) (r : Nat) (urls names : List String) :
    download_single_url resume maxRetries server file = (file, true, [])
    ∧ roundFailed (fun _ u' n' =>
        (download_single_url resume maxRetries (serverOf u' n') (fsOf n')).2.1)
        r urls names = [] := by
  have htn : maxRetries.toNat = 0 := Int.toNat_eq_zero.mpr hmr
  constructor
  · unfold download_single_url
    rw [htn]
    rfl
  · apply List.filter_eq_nil_iff.mpr
    intro p _
    unfold download_single_url
    rw [htn]
    simp [runAttempts]

/-- C10 witness: zero retries against an always-failing server. -/
theorem c10_witness :
    download_single_url true 0 (fun _ _ => .errMid [1]) (some [5]) = (some [5], true, [])
    ∧ roundFailed (fun _ _ _ =>
        (download_single_url true 0 (fun _ _ => .errMid [1]) none).2.1)
        0 ["u"] ["n"] = [] := by
  have h := c10_nonpos_retries_success true 0 (by decide) (fun _ _ => .errMid [1])
    (some [5]) (fun _ _ => fun _ _ => .errMid [1]) (fun _ => none) 0 ["u"] ["n"]
  exact h

/-! ### C2 -/

/-- If every request raises (an exception before any byte, or mid-stream),
the retry loop over `range' a b` (ending at the final attempt
`maxRetries - 1`) runs all `b` remaining attempts and returns `False`. -/
theorem runAttempts_allfail (resume : Bool) (maxRetries : Int)
    (server : Nat → Option Nat → Resp)
    (hfail : ∀ i rs, server i rs = .errBefore ∨ ∃ p, server i rs = .errMid p) :
    ∀ (b a : Nat) (file : FileContent), (a : Int) + b = maxRetries → 1 ≤ b →
      (runAttempts resume maxRetries server (List.range' a b) file).2.1 = false
      ∧ (runAttempts resume maxRetries server (List.range' a b) file).2.2.length = b := by
  intro b
  induction b with
  | zero => intro a file _ hb; exact absurd hb (by decide)
  | succ b ih =>
    intro a file hab _
    have hout : ∃ f, attemptOnce resume server a file = .failedAttempt f := by
      unfold attemptOnce
      rcases hfail a (rangeHeaderOf resume file) with h | ⟨p, h⟩ <;> rw [h] <;>
        exact ⟨_, rfl⟩
    obtain ⟨f, hf⟩ := hout
    rw [List.range'_succ]
    cases b with
    | zero =>
      have hlast : (a : Int) = maxRetries - 1 := by omega
      simp [runAttempts, hf, hlast]
    | succ b' =>
      have hnotlast : ¬((a : Int) = maxRetries - 1) := by
        intro h
        omega
      have ihres := ih (a + 1) f (by push_cast; push_cast at hab; omega) (by omega)
      generalize hrest : List.range' (a + 1) (b' + 1) = rest at ihres ⊢
      simp only [runAttempts, hf, if_neg hnotlast]
      refine ⟨ihres.1, ?_⟩
      simp [ihres.2]

/-- C2: a task whose every request fails (raises, or gets a non-success
status which `raise_for_status` turns into an exception), with
`max_retries ≥ 1`, performs exactly `max_retries` attempts (one HTTP
request each), returns `False`, and — when its `(url, name)` pair occurs
once in the batch — appears exactly once in the round's failed list. -/
theorem c2_retry_bound (resume : Bool) (maxRetries : Int) (hmr : 1 ≤ maxRetries)
    (server : Nat → Option Nat → Resp)
    (hfail : ∀ i rs, server i rs = .errBefore ∨ ∃ p, server i rs = .errMid p)
    (file : FileContent)
    (serverOf : String → String → Nat → Option Nat → Resp)
    (fsOf : String → FileContent) (r : Nat) (urls names : List String)
    (u n : String)
    (hsrv : ∀ i rs, serverOf u n i rs = .errBefore ∨ ∃ p, serverOf u n i rs = .errMid p)
    (honce : (urls.zip names).count (u, n) = 1) :
    (download_single_url resume maxRetries server file).2.1 = false
    ∧ ((download_single_url resume maxRetries server file).2.2.length : Int) = maxRetries
    ∧ (roundFailed (fun _ u' n' =>
         (download_single_url resume maxRetries (serverOf u' n') (fsOf n')).2.1)
        r urls names).count (u, n) = 1 := by
  have hnn : (maxRetries.toNat : Int) = maxRetries := Int.toNat_of_nonneg (by omega)
  have key : ∀ (srv : Nat → Option Nat → Resp),
      (∀ i rs, srv i rs = .errBefore ∨ ∃ p, srv i rs = .errMid p) →
      ∀ fl, (download_single_url resume maxRetries srv fl).2.1 = false
        ∧ (download_single_url resume maxRetries srv fl).2.2.length = maxRetries.toNat := by
    intro srv hsrv' fl
    unfold download_single_url
    rw [List.range_eq_range']
    exact runAttempts_allfail resume maxRetries srv hsrv' maxRetries.toNat 0 fl
      (by omega) (by omega)
  refine ⟨(key server hfail file).1, ?_, ?_⟩
  · rw [(key server hfail file).2, hnn]
  · unfold roundFailed
    have hsingle := (key (serverOf u n) hsrv (fsOf n)).1
    rw [List.count_filter (by simp only; rw [hsingle]; rfl)]
    exact honce

/-- C2 witness: one task, one url, three attempts against a server that
always raises mid-stream. -/
theorem c2_witness :
    (download_single_url true 3 (fun _ _ => .errMid [1]) (some [0])).2.1 = false
    ∧ ((download_single_url true 3 (fun _ _ => .errMid [1]) (some [0])).2.2.length : Int) = 3
    ∧ (roundFailed (fun _ _ _ =>
         (download_single_url true 3 (fun _ _ => Resp.errMid [1]) none).2.1)
        0 ["u"] ["n"]).count ("u", "n") = 1 :=
  c2_retry_bound true 3 (by decide) (fun _ _ => .errMid [1])
    (fun _ _ => Or.inr ⟨[1], rfl⟩) (some [0])
    (fun _ _ => fun _ _ => Resp.errMid [1]) (fun _ => none) 0 ["u"] ["n"] "u" "n"
    (fun _ _ => Or.inr ⟨[1], rfl⟩) (by decide)

/-! ### C3 -/

/-- Fuel needed by one engine run: extra rounds left in the budget. -/
def coeFuel : COE → Nat
  | .bool b => if b then 1 else 0
  | .int n => n.toNat

/-- Budgets for which the Python recursion terminates: any boolean, or a
non-negative integer (a negative integer stays truthy forever). -/
def coeOk : COE → Prop
  | .bool _ => True
  | .int n => 0 ≤ n

/-- When every task fails in every round, a budget of `.int m` yields
exactly `m + 1` further rounds and a non-empty final failed list. -/
theorem download_allfail_int (dl : Nat → String → String → Bool)
    (hdl : ∀ r u n, dl r u n = false) :
    ∀ (m : Nat) (fuel : Nat) (s : DState), s.urls ≠ [] →
      s.names.length = s.urls.length → s.coe = .int m → m + 1 ≤ fuel →
      (download dl fuel s).rounds = s.rounds + m + 1
      ∧ (download dl fuel s).failed ≠ [] := by
  intro m
  induction m with
  | zero =>
    intro fuel s hurls hlen hcoe hfuel
    obtain ⟨f, rfl⟩ : ∃ f, fuel = f + 1 := ⟨fuel - 1, by omega⟩
    have hzip : s.urls.zip s.names ≠ [] := by
      intro h
      apply hurls
      apply List.length_eq_zero.mp
      have := congrArg List.length h
      rw [List.length_zip, hlen] at this
      simpa using this
    have hrf : roundFailed dl s.rounds s.urls s.names = s.urls.zip s.names := by
      unfold roundFailed
      exact List.filter_eq_self.mpr (fun p _ => by rw [hdl]; rfl)
    rw [download, hrf]
    rw [if_neg (by rw [hcoe]; simp [COE.truthy])]
    refine ⟨rfl, ?_⟩
    simp [hzip]
  | succ m ih =>
    intro fuel s hurls hlen hcoe hfuel
    obtain ⟨f, rfl⟩ : ∃ f, fuel = f + 1 := ⟨fuel - 1, by omega⟩
    have hzip : s.urls.zip s.names ≠ [] := by
      intro h
      apply hurls
      apply List.length_eq_zero.mp
      have := congrArg List.length h
      rw [List.length_zip, hlen] at this
      simpa using this
    have hrf : roundFailed dl s.rounds s.urls s.names = s.urls.zip s.names := by
      unfold roundFailed
      exact List.filter_eq_self.mpr (fun p _ => by rw [hdl]; rfl)
    have hne : s.failed ++ roundFailed dl s.rounds s.urls s.names ≠ [] := by
      rw [hrf]
      simp [hzip]
    rw [download]
    rw [if_pos ⟨hne, by rw [hcoe]; simp [COE.truthy]; omega⟩]
    have hdec : (s.coe.dec) = COE.int (m : Int) := by
      rw [hcoe]
      simp only [COE.dec, COE.int.injEq]
      push_cast
      ring
    have := ih f
      { urls := (s.failed ++ roundFailed dl s.rounds s.urls s.names).map Prod.fst,
        names := (s.failed ++ roundFailed dl s.rounds s.urls s.names).map Prod.snd,
        coe := s.coe.dec, failed := [], rounds := s.rounds + 1 }
      (by simpa using hne) (by simp) hdec (by omega)
    refine ⟨?_, this.2⟩
    rw [this.1]
    show s.rounds + 1 + m + 1 = s.rounds + (m + 1) + 1
    omega

/-- With a terminating budget and enough fuel, the engine's recursion
genuinely stops: at the returned state the recursion guard is false, i.e.
the failed list is empty or the budget is no longer truthy. -/
theorem download_reaches_stop (dl : Nat → String → String → Bool) :
    ∀ (fuel : Nat) (s : DState), coeOk s.coe → coeFuel s.coe + 1 ≤ fuel →
      (download dl fuel s).failed = [] ∨ (download dl fuel s).coe.truthy = false := by
  intro fuel
  induction fuel with
  | zero => intro s _ h; exact absurd h (by omega)
  | succ f ih =>
    intro s hok hfuel
    rw [download]
    by_cases hg : (s.failed ++ roundFailed dl s.rounds s.urls s.names ≠ [])
        ∧ (s.coe.truthy = true)
    · rw [if_pos hg]
      apply ih
      · cases hc : s.coe with
        | bool b =>
          have hb : b = true := by
            have := hg.2
            rw [hc] at this
            simpa [COE.truthy] using this
          subst hb
          simp [COE.dec, coeOk]
        | int n =>
          have hn : n ≠ 0 := by
            have := hg.2
            rw [hc] at this
            simpa [COE.truthy] using this
          have h0 : 0 ≤ n := by
            have := hok
            rw [hc] at this
            exact this
          simp only [COE.dec, coeOk]
          omega
      · cases hc : s.coe with
        | bool b =>
          have hb : b = true := by
            have := hg.2
            rw [hc] at this
            simpa [COE.truthy] using this
          subst hb
          rw [hc] at hfuel
          simp [COE.dec, coeFuel] at hfuel ⊢
          omega
        | int n =>
          have hn : n ≠ 0 := by
            have := hg.2
            rw [hc] at this
            simpa [COE.truthy] using this
          have h0 : 0 ≤ n := by
            have := hok
            rw [hc] at this
            exact this
          rw [hc] at hfuel
          simp [COE.dec, coeFuel] at hfuel ⊢
          omega
    · rw [if_neg hg]
      rcases not_and_or.mp hg with h | h
      · left
        simpa using not_ne_iff.mp h
      · right
        simpa using h

/-- C3: when every task fails in every round, a non-negative integer
budget `n` yields exactly `n + 1` total rounds and a non-empty final
failed list; the boolean budget `True` grants exactly one extra round
(2 total); and in general, for any terminating budget and enough fuel,
the recursion stops exactly when the failed list is empty or the budget
is exhausted (no longer truthy). -/
theorem c3_continue_on_error_rounds (dl : Nat → String → String → Bool)
    (hdl : ∀ r u n, dl r u n = false) :
    (∀ (n : Nat) (fuel : Nat) (urls names : List String), urls ≠ [] →
       names.length = urls.length → n + 1 ≤ fuel →
       (download dl fuel ⟨urls, names, .int n, [], 0⟩).rounds = n + 1
       ∧ (download dl fuel ⟨urls, names, .int n, [], 0⟩).failed ≠ [])
    ∧ (∀ (fuel : Nat) (urls names : List String), urls ≠ [] →
       names.length = urls.length → 2 ≤ fuel →
       (download dl fuel ⟨urls, names, .bool true, [], 0⟩).rounds = 2
       ∧ (download dl fuel ⟨urls, names, .bool true, [], 0⟩).failed ≠ [])
    ∧ (∀ (dl' : Nat → String → String → Bool) (fuel : Nat) (s : DState),
       coeOk s.coe → coeFuel s.coe + 1 ≤ fuel →
       (download dl' fuel s).failed = [] ∨ (download dl' fuel s).coe.truthy = false) := by
  refine ⟨?_, ?_, fun dl' => download_reaches_stop dl'⟩
  · intro n fuel urls names hurls hlen hfuel
    have h := download_allfail_int dl hdl n fuel ⟨urls, names, .int n, [], 0⟩
      hurls hlen rfl hfuel
    refine ⟨?_, h.2⟩
    rw [h.1]
    show 0 + n + 1 = n + 1
    omega
  · intro fuel urls names hurls hlen hfuel
    obtain ⟨f, rfl⟩ : ∃ f, fuel = f + 1 := ⟨fuel - 1, by omega⟩
    have hzip : urls.zip names ≠ [] := by
      intro h
      apply hurls
      apply List.length_eq_zero.mp
      have := congrArg List.length h
      rw [List.length_zip, hlen] at this
      simpa using this
    have hrf : roundFailed dl 0 urls names = urls.zip names := by
      unfold roundFailed
      exact List.filter_eq_self.mpr (fun p _ => by rw [hdl]; rfl)
    rw [download]
    simp only
    rw [if_pos ⟨by simp [hrf, hzip], by simp [COE.truthy]⟩]
    have h := download_allfail_int dl hdl 0 f
      { urls := ([] ++ roundFailed dl 0 urls names).map Prod.fst,
        names := ([] ++ roundFailed dl 0 urls names).map Prod.snd,
        coe := (COE.bool true).dec, failed := [], rounds := 1 }
      (by simp [hrf, hzip]) (by simp) (by simp [COE.dec]) (by omega)
    refine ⟨?_, h.2⟩
    rw [h.1]

/-- C3 witness: one url, budget 1 as integer and budget `True`. -/
theorem c3_witness :
    ((download (fun _ _ _ => false) 5 ⟨["u"], ["n"], .int 1, [], 0⟩).rounds = 2
      ∧ (download (fun _ _ _ => false) 5 ⟨["u"], ["n"], .int 1, [], 0⟩).failed ≠ [])
    ∧ (download (fun _ _ _ => false) 5 ⟨["u"], ["n"], .bool true, [], 0⟩).rounds = 2 := by
  have h := c3_continue_on_error_rounds (fun _ _ _ => false) (fun _ _ _ => rfl)
  exact ⟨⟨(h.1 1 5 ["u"] ["n"] (by decide) rfl (by omega)).1,
         (h.1 1 5 ["u"] ["n"] (by decide) rfl (by omega)).2⟩,
        (h.2.1 5 ["u"] ["n"] (by decide) rfl (by omega)).1⟩

/-! ### C6 -/

/-- The pool fold writes each result at its input index: a position that
appears in the schedule holds its task's result, every other position
keeps the accumulator's value. -/
theorem executorMap_foldl_getElem? (f : α → β) (inputs : List α) :
    ∀ (schedule : List Nat) (acc : List (Option β)), acc.length = inputs.length →
      ∀ (i : Nat), (hi : i < inputs.length) →
      (schedule.foldl
        (fun acc' j =>
          match inputs[j]? with
          | some a => acc'.set j (some (f a))
          | none => acc') acc)[i]?
        = if i ∈ schedule then some (some (f (inputs.get ⟨i, hi⟩))) else acc[i]? := by
  intro schedule
  induction schedule with
  | nil => intro acc _ i hi; simp
  | cons j rest ih =>
    intro acc hlen i hi
    rw [List.foldl_cons]
    have hlen' : (match inputs[j]? with
        | some a => acc.set j (some (f a))
        | none => acc).length = inputs.length := by
      cases inputs[j]? <;> simp [hlen]
    rw [ih _ hlen' i hi]
    by_cases hir : i ∈ rest
    · simp [hir]
    · simp only [hir, if_false]
      by_cases hij : i = j
      · subst hij
        have hget : inputs[i]? = some (inputs.get ⟨i, hi⟩) := by
          rw [List.getElem?_eq_getElem hi]
          rfl
        rw [hget]
        simp [List.getElem?_set, hlen, hi, List.mem_cons]
      · cases hj : inputs[j]? with
        | none => simp [List.mem_cons, hij, hir]
        | some a =>
          simp only [List.mem_cons, hij, hir, or_self, if_false]
          exact List.getElem?_set_ne (fun h => hij h.symm)

/-- The pool fold never changes the result list's length. -/
theorem executorMap_length (f : α → β) (inputs : List α) :
    ∀ (schedule : List Nat) (acc : List (Option β)),
      (schedule.foldl
        (fun acc' j =>
          match inputs[j]? with
          | some a => acc'.set j (some (f a))
          | none => acc') acc).length = acc.length := by
  intro schedule
  induction schedule with
  | nil => intro acc; rfl
  | cons j rest ih =>
    intro acc
    rw [List.foldl_cons, ih]
    cases inputs[j]? <;> simp

/-- `executor.map` with any schedule that completes every task reports, at
index `i`, the outcome of task `i` — the result list is the in-order map,
independent of completion order. -/
theorem executorMap_eq_map (f : α → β) (inputs : List α) (schedule : List Nat)
    (hcov : ∀ j, j < inputs.length → j ∈ schedule) :
    executorMap f inputs schedule = inputs.map (fun a => some (f a)) := by
  apply List.ext_getElem?
  intro i
  by_cases hi : i < inputs.length
  · rw [executorMap,
      executorMap_foldl_getElem? f inputs schedule _ (List.length_replicate _ _) i hi,
      if_pos (hcov i hi), List.getElem?_map, List.getElem?_eq_getElem hi]
    rfl
  · have hlhs : (executorMap f inputs schedule).length ≤ i := by
      rw [executorMap, executorMap_length, List.length_replicate]
      omega
    have hrhs : (inputs.map (fun a => some (f a))).length ≤ i := by
      rw [List.length_map]
      omega
    rw [List.getElem?_eq_none hlhs, List.getElem?_eq_none hrhs]

/-- C6: for any batch, any completion order across workers that finishes
every task yields the same reported sequence: the outcome at index `i` is
the outcome of the task built from input index `i` (the in-order map of
`_download_single_url` over the zipped urls and names). -/
theorem c6_order_preserved (resume : Bool) (maxRetries : Int)
    (serverOf : String → String → Nat → Option Nat → Resp)
    (fsOf : String → FileContent) (urls names : List String)
    (schedule : List Nat)
    (hcov : ∀ j, j < (urls.zip names).length → j ∈ schedule) :
    executorMap (fun p : String × String =>
        download_single_url resume maxRetries (serverOf p.1 p.2) (fsOf p.2))
      (urls.zip names) schedule
      = (urls.zip names).map (fun p =>
          some (download_single_url resume maxRetries (serverOf p.1 p.2) (fsOf p.2))) :=
  executorMap_eq_map _ _ _ hcov

/-- C6 witness: two tasks completed in reverse order still report in input
order. -/
theorem c6_witness :
    executorMap (fun _ : String × String =>
        download_single_url false 1 (fun _ _ => Resp.ok [1]) none)
      ((["u1", "u2"]).zip ["n1", "n2"]) [1, 0]
      = ((["u1", "u2"]).zip ["n1", "n2"]).map (fun _ =>
          some (download_single_url false 1 (fun _ _ => Resp.ok [1]) none)) :=
  c6_order_preserved false 1 (fun _ _ => fun _ _ => Resp.ok [1]) (fun _ => none)
    ["u1", "u2"] ["n1", "n2"] [1, 0] (by decide)

/-! ### C7 -/

/-- With resume enabled, across the whole retry loop: the final file and
the file seen at the start of every attempt extend the initial file by
appending (never truncating or overwriting); consecutive attempts only
append; and every request's range header is exactly the one recomputed
from the file as it stands at the start of that attempt. -/
theorem runAttempts_resume_props (maxRetries : Int)
    (server : Nat → Option Nat → Resp) :
    ∀ (attempts : List Nat) (file : FileContent),
      Extends file (runAttempts true maxRetries server attempts file).1
      ∧ (∀ e ∈ (runAttempts true maxRetries server attempts file).2.2,
           Extends file e.2.2 ∧ e.2.1 = rangeHeaderOf true e.2.2)
      ∧ List.Chain' (fun e e' : Nat × Option Nat × FileContent => Extends e.2.2 e'.2.2)
          (runAttempts true maxRetries server attempts file).2.2 := by
  intro attempts
  induction attempts with
  | nil =>
    intro file
    refine ⟨Extends.rfl file, ?_, ?_⟩ <;> simp [runAttempts]
  | cons i rest ih =>
    intro file
    have hext := attemptOnce_extends true server i file
    cases hout : attemptOnce true server i file with
    | done f =>
      rw [hout] at hext
      simp only [runAttempts, hout]
      refine ⟨hext, ?_, by simp⟩
      intro e he
      rw [List.mem_singleton] at he
      subst he
      exact ⟨Extends.rfl file, rfl⟩
    | failedAttempt f =>
      rw [hout] at hext
      by_cases hlast : (i : Int) = maxRetries - 1
      · simp only [runAttempts, hout, if_pos hlast]
        refine ⟨hext, ?_, by simp⟩
        intro e he
        rw [List.mem_singleton] at he
        subst he
        exact ⟨Extends.rfl file, rfl⟩
      · simp only [runAttempts, hout, if_neg hlast]
        obtain ⟨ih1, ih2, ih3⟩ := ih f
        refine ⟨Extends.trans hext ih1, ?_, ?_⟩
        · intro e he
          rcases List.mem_cons.mp he with he | he
          · subst he
            exact ⟨Extends.rfl file, rfl⟩
          · exact ⟨Extends.trans hext (ih2 e he).1, (ih2 e he).2⟩
        · rw [List.chain'_cons']
          refine ⟨?_, ih3⟩
          intro e he
          exact Extends.trans hext (ih2 e (List.mem_of_mem_head? he)).1

/-- C7: for a task with resume enabled, the output file is only appended
to across attempts — the final content and each attempt's starting content
extend the initial content, and consecutive attempts extend each other —
and each attempt's range request carries the offset recomputed from the
file's size at the start of that very attempt (`some size` whenever the
file exists then). -/
theorem c7_resume_append_only (maxRetries : Int)
    (server : Nat → Option Nat → Resp) (file : FileContent) :
    Extends file (download_single_url true maxRetries server file).1
    ∧ (∀ e ∈ (download_single_url true maxRetries server file).2.2,
         Extends file e.2.2 ∧ e.2.1 = rangeHeaderOf true e.2.2
         ∧ ∀ c, e.2.2 = some c → e.2.1 = some c.length)
    ∧ List.Chain' (fun e e' : Nat × Option Nat × FileContent => Extends e.2.2 e'.2.2)
        (download_single_url true maxRetries server file).2.2 := by
  obtain ⟨h1, h2, h3⟩ :=
    runAttempts_resume_props maxRetries server (List.range maxRetries.toNat) file
  refine ⟨h1, ?_, h3⟩
  intro e he
  refine ⟨(h2 e he).1, (h2 e he).2, ?_⟩
  intro c hc
  rw [(h2 e he).2, hc]
  simp [rangeHeaderOf]

/-- C7 witness: two failing attempts on an existing file; the final file
extends the initial one byte list by appended bytes. -/
theorem c7_witness :
    ∃ t, (download_single_url true 2 (fun _ _ => .errMid [1]) (some [0])).1
      = some ([0] ++ t) :=
  (c7_resume_append_only 2 (fun _ _ => .errMid [1]) (some [0])).1 [0] rfl

/-! ### C8 -/

/-- One engine round whose guard holds recurses on the failed subset. -/
theorem download_step (dl : Nat → String → String → Bool) (fuel : Nat) (s : DState)
    (h : s.failed ++ roundFailed dl s.rounds s.urls s.names ≠ []
      ∧ s.coe.truthy = true) :
    download dl (fuel + 1) s = download dl fuel
      { urls := (s.failed ++ roundFailed dl s.rounds s.urls s.names).map Prod.fst,
        names := (s.failed ++ roundFailed dl s.rounds s.urls s.names).map Prod.snd,
        coe := s.coe.dec, failed := [], rounds := s.rounds + 1 } := by
  simp only [download]
  rw [if_pos h]

/-- One engine round whose guard fails stops with the accumulated failed
list. -/
theorem download_stop (dl : Nat → String → String → Bool) (fuel : Nat) (s : DState)
    (h : ¬(s.failed ++ roundFailed dl s.rounds s.urls s.names ≠ []
      ∧ s.coe.truthy = true)) :
    download dl (fuel + 1) s
      = { s with failed := s.failed ++ roundFailed dl s.rounds s.urls s.names,
                 rounds := s.rounds + 1 } := by
  simp only [download]
  rw [if_neg h]

/-- C8: after the engine performs a continue-on-error round, the stored
`urls` and `names` are the failed subset of the previous round (here: a
first round with failures followed by a fully successful second round);
a subsequent `md5check` therefore iterates over that subset only, and its
length check compares the digest list against the surviving urls list. -/
theorem c8_round_replaces_urls (dl : Nat → String → String → Bool)
    (fuel : Nat) (urls names : List String) (coe : COE)
    (htruthy : coe.truthy = true)
    (hF : roundFailed dl 0 urls names ≠ [])
    (hsucc : ∀ u n, dl 1 u n = true)
    (hfuel : 2 ≤ fuel) :
    (download dl fuel ⟨urls, names, coe, [], 0⟩).urls
        = (roundFailed dl 0 urls names).map Prod.fst
    ∧ (download dl fuel ⟨urls, names, coe, [], 0⟩).names
        = (roundFailed dl 0 urls names).map Prod.snd
    ∧ (download dl fuel ⟨urls, names, coe, [], 0⟩).rounds = 2
    ∧ ∀ (fs : String → FileContent) (hash : List Nat → String)
        (md5sums : List String),
        (md5check (download dl fuel ⟨urls, names, coe, [], 0⟩).urls
            (download dl fuel ⟨urls, names, coe, [], 0⟩).names fs hash md5sums
          = .error ())
        ↔ md5sums.length ≠ (roundFailed dl 0 urls names).length := by
  obtain ⟨f, rfl⟩ : ∃ f, fuel = f + 1 + 1 := ⟨fuel - 2, by omega⟩
  have h1 := download_step dl (f + 1) ⟨urls, names, coe, [], 0⟩
    ⟨by simpa using hF, htruthy⟩
  rw [h1]
  have hrf1 : roundFailed dl 1 ((roundFailed dl 0 urls names).map Prod.fst)
      ((roundFailed dl 0 urls names).map Prod.snd) = [] := by
    unfold roundFailed
    apply List.filter_eq_nil_iff.mpr
    intro p _
    rw [hsucc p.1 p.2]
    simp
  have h2 := download_stop dl f
    { urls := (([] : List (String × String))
        ++ roundFailed dl 0 urls names).map Prod.fst,
      names := (([] : List (String × String))
        ++ roundFailed dl 0 urls names).map Prod.snd,
      coe := coe.dec, failed := [], rounds := 0 + 1 }
    (by simp [hrf1])
  rw [h2]
  refine ⟨by simp, by simp, by simp, ?_⟩
  intro fs hash md5sums
  rw [md5check_error_iff]
  simp

/-- C8 witness: two urls, the second fails in round 0 and everything
succeeds in round 1: the stored url list afterwards is the failed subset. -/
theorem c8_witness :
    (download (fun r _ n => decide (r = 1) || decide (n = "n1")) 2
      ⟨["u1", "u2"], ["n1", "n2"], .int 5, [], 0⟩).urls = ["u2"] := by
  have h := c8_round_replaces_urls
    (fun r _ n => decide (r = 1) || decide (n = "n1")) 2
    ["u1", "u2"] ["n1", "n2"] (.int 5) (by decide) (by decide)
    (fun u n => by simp) (by decide)
  rw [h.1]
  decide

end Downloader
